import Mathlib

/-!
Verification of the most-active-cookie log processor.

The definitions below are a shallow embedding of `src/cookie_log_processor.py`,
`src/arg_parser.py` and `src/main.py`:
* an input file is a `List String` of its lines (header first);
* Python's `csv.reader` (for the quote-free, comma-delimited input contract)
  is `parseRow`; a blank line yields no fields, as in the csv module;
* Python string `<` (code-point lexicographic) is `pyStrLt`, `str.strip` is
  `pyStrip`;
* `datetime.fromisoformat` is modelled on the log's timestamp format
  `YYYY-MM-DDTHH:MM:SS±HH:MM`, with the stdlib's range validation
  (month 1..12, day within month incl. leap years, hour ≤ 23, etc.);
* a Python `dict`/`defaultdict(int)` is an insertion-ordered association list
  `List (String × Nat)` with unique keys; `defaultdict` lookup of a missing
  key is 0 (`lookupCount`), `cookie_counts[cookie] += 1` is `incr`;
* raising an exception is `Except.error` / `Option.none`.
-/

namespace CookieLog

/-- Characters removed by Python's `str.strip()` (ASCII whitespace). -/
def isPySpace (c : Char) : Bool :=
  c = ' ' || c = '\t' || c = '\n' || c = '\r' || c = '\x0b' || c = '\x0c'

/-- Model of Python `str.strip()`: drop whitespace from both ends. -/
def pyStrip (s : String) : String :=
  (((s.data.dropWhile isPySpace).reverse.dropWhile isPySpace).reverse).asString

/-- Model of Python string `<` on the underlying character lists (lexicographic by
code point). -/
def pyStrLtAux : List Char → List Char → Bool
  | [], [] => false
  | [], _ :: _ => true
  | _ :: _, [] => false
  | a :: as, b :: bs => if a < b then true else if b < a then false else pyStrLtAux as bs

/-- Model of Python string `<`. -/
def pyStrLt (s t : String) : Bool := pyStrLtAux s.data t.data

/-- Split a character list at every occurrence of `sep` (no quoting). -/
def splitOnChar (sep : Char) : List Char → List (List Char)
  | [] => [[]]
  | c :: cs =>
    match splitOnChar sep cs with
    | [] => [[c]]
    | f :: rest => if c = sep then [] :: f :: rest else (c :: f) :: rest

/-- One line through `csv.reader`: a blank line gives no fields, otherwise
the line is split on commas (the input contract has no quoted fields). -/
def parseRow (line : String) : List String :=
  match line.data with
  | [] => []
  | l => (splitOnChar ',' l).map List.asString

/-- The per-row validation of `_read_cookie_log` (lines 82–97): exactly two
fields, both non-empty after stripping; otherwise the row is skipped. -/
def readRow (row : List String) : Option (String × String) :=
  match row with
  | [c0, t0] =>
    let cookie := pyStrip c0
    let timestamp := pyStrip t0
    if cookie = "" ∨ timestamp = "" then none else some (cookie, timestamp)
  | _ => none

/-- The method `_read_cookie_log`: skip the header; if there is no header line at all the
file is empty and `ValueError("Empty file")` is raised; otherwise yield the
rows that survive `readRow`. -/
def read_cookie_log (lines : List String) : Except String (List (String × String)) :=
  match lines with
  | [] => Except.error "Empty file"
  | _header :: rest => Except.ok (rest.filterMap (fun line => readRow (parseRow line)))

/-- An aware `datetime` as produced by `datetime.fromisoformat` on the log's
timestamps: calendar fields plus the UTC offset, kept as written. -/
structure PyDateTime where
  year : Nat
  month : Nat
  day : Nat
  hour : Nat
  minute : Nat
  second : Nat
  offsetNeg : Bool
  offsetHour : Nat
  offsetMinute : Nat
deriving DecidableEq, Repr

/-- Value of a decimal digit character, as CPython reads one: a character
in the class `0-9`, taken at its code-point distance from `'0'`. -/
def decodeDigit (c : Char) : Option Nat :=
  if c.isDigit then some (c.toNat - 48) else none

/-- Two decimal digits. -/
def decode2 (a b : Char) : Option Nat := do
  let x ← decodeDigit a
  let y ← decodeDigit b
  pure (10 * x + y)

/-- Four decimal digits. -/
def decode4 (a b c d : Char) : Option Nat := do
  let x ← decode2 a b
  let y ← decode2 c d
  pure (100 * x + y)

/-- Gregorian leap year, as in Python's `calendar.isleap`. -/
def isLeapYear (y : Nat) : Bool :=
  y % 4 = 0 && (y % 100 != 0 || y % 400 = 0)

/-- Days in a month, as validated by `datetime`. -/
def daysInMonth (y m : Nat) : Nat :=
  if m = 2 then (if isLeapYear y then 29 else 28)
  else if m = 4 ∨ m = 6 ∨ m = 9 ∨ m = 11 then 30 else 31

/-- Model of `datetime.fromisoformat`, modelled on the log's timestamp format
`YYYY-MM-DDTHH:MM:SS±HH:MM` (the format of every timestamp in the input
contract), with the stdlib's field validation: year 1–9999, month 1–12, day
within the month, hour ≤ 23, minute/second ≤ 59, offset within ±24 h.
Any other string fails to parse (`ValueError`, here `none`). -/
def fromisoformat (s : String) : Option PyDateTime :=
  match s.data with
  | [y1, y2, y3, y4, sep1, m1, m2, sep2, d1, d2, sepT,
     h1, h2, sepC1, mi1, mi2, sepC2, s1, s2,
     sgn, oh1, oh2, sepC3, om1, om2] =>
    if sep1 = '-' ∧ sep2 = '-' ∧ sepT = 'T' ∧ sepC1 = ':' ∧ sepC2 = ':' ∧ sepC3 = ':'
        ∧ (sgn = '+' ∨ sgn = '-') then
      match decode4 y1 y2 y3 y4, decode2 m1 m2, decode2 d1 d2,
            decode2 h1 h2, decode2 mi1 mi2, decode2 s1 s2,
            decode2 oh1 oh2, decode2 om1 om2 with
      | some y, some mo, some d, some hh, some mi, some ss, some oh, some om =>
        if 1 ≤ y ∧ 1 ≤ mo ∧ mo ≤ 12 ∧ 1 ≤ d ∧ d ≤ daysInMonth y mo
            ∧ hh ≤ 23 ∧ mi ≤ 59 ∧ ss ≤ 59 ∧ oh ≤ 23 ∧ om ≤ 59 then
          some ⟨y, mo, d, hh, mi, ss, sgn = '-', oh, om⟩
        else none
      | _, _, _, _, _, _, _, _ => none
    else none
  | _ => none

/-- Model of `date.isoformat()`: zero-padded `YYYY-MM-DD`. -/
def isoDate (y m d : Nat) : String :=
  ⟨[Nat.digitChar (y / 1000 % 10), Nat.digitChar (y / 100 % 10),
    Nat.digitChar (y / 10 % 10), Nat.digitChar (y % 10), '-',
    Nat.digitChar (m / 10 % 10), Nat.digitChar (m % 10), '-',
    Nat.digitChar (d / 10 % 10), Nat.digitChar (d % 10)]⟩

/-- The method `_extract_date`: parse the timestamp and return `dt.date().isoformat()`;
an unparseable timestamp raises `ValueError` (here `none`). -/
def extract_date (ts : String) : Option String :=
  (fromisoformat ts).map (fun dt => isoDate dt.year dt.month dt.day)

/-- Lookup in a `defaultdict(int)`: 0 for a missing key. -/
def lookupCount (tbl : List (String × Nat)) (c : String) : Nat :=
  match tbl with
  | [] => 0
  | (k, v) :: rest => if k = c then v else lookupCount rest c

/-- The update `cookie_counts[cookie] += 1` on an insertion-ordered table: bump an
existing key or append it with count 1. -/
def incr : List (String × Nat) → String → List (String × Nat)
  | [], c => [(c, 1)]
  | (k, v) :: rest, c => if k = c then (k, v + 1) :: rest else (k, v) :: incr rest c

/-- The scan loop of `_count_cookies_for_date` (lines 136–156) over the
records yielded by the reader: count records on the target date, `break` on
the first record strictly before it, skip records whose timestamp fails to
parse, and return the accumulated table. -/
def countAux (target : String) : List (String × String) → List (String × Nat) → List (String × Nat)
  | [], acc => acc
  | (cookie, timestamp) :: rest, acc =>
    match extract_date timestamp with
    | none => countAux target rest acc
    | some entry_date =>
      if entry_date = target then countAux target rest (incr acc cookie)
      else if pyStrLt entry_date target then acc
      else countAux target rest acc

/-- The method `_count_cookies_for_date`, starting from the empty table. -/
def count_cookies_for_date (target : String) (records : List (String × String)) :
    List (String × Nat) :=
  countAux target records []

/-- The records the scan loop actually consumes from the reader before
returning: every record up to and including the one that triggers `break`. -/
def visited (target : String) : List (String × String) → List (String × String)
  | [] => []
  | (cookie, timestamp) :: rest =>
    match extract_date timestamp with
    | none => (cookie, timestamp) :: visited target rest
    | some entry_date =>
      if entry_date = target then (cookie, timestamp) :: visited target rest
      else if pyStrLt entry_date target then [(cookie, timestamp)]
      else (cookie, timestamp) :: visited target rest

/-- Whether this record is the kind that triggers the `break`: its timestamp
parses and its date is strictly before the target date. -/
def stopsScan (target : String) (r : String × String) : Bool :=
  match extract_date r.2 with
  | none => false
  | some d => pyStrLt d target

/-- The value `max(cookie_counts.values())` (on a non-empty table this is the maximum
of the counts). -/
def maxCount (tbl : List (String × Nat)) : Nat :=
  tbl.foldl (fun m p => Nat.max m p.2) 0

/-- Insert into an already-sorted list (ascending by Python string `<`). -/
def insertSorted (x : String) : List String → List String
  | [] => [x]
  | y :: ys => if pyStrLt y x then y :: insertSorted x ys else x :: y :: ys

/-- Model of Python `sorted` on a list of strings: ascending lexicographic order. -/
def pySorted (l : List String) : List String := l.foldr insertSorted []

/-- The method `_find_most_active` (lines 164–183): empty table gives `[]`; otherwise
collect the keys whose count equals the maximum and sort them. -/
def find_most_active (tbl : List (String × Nat)) : List String :=
  match tbl with
  | [] => []
  | _ :: _ =>
    let max_count := maxCount tbl
    let most_active := (tbl.filter (fun p => p.2 == max_count)).map Prod.fst
    pySorted most_active

/-- The method `CookieLogProcessor.process` on the file's lines: read, count, select.
An exception raised while reading propagates (the `try` in the scan loop
only catches `_extract_date` failures). -/
def process (target : String) (lines : List String) : Except String (List String) :=
  (read_cookie_log lines).map
    (fun records => find_most_active (count_cookies_for_date target records))

/-- The state of the path given to `-f`, as far as `validate_file_exists`
inspects it: missing, not a regular file, or a regular file with the given
lines (an empty file has no lines, so `st_size > 0` iff the line list is
non-empty). -/
inductive FileStat where
  | missing
  | notAFile
  | regular (lines : List String)

/-- The validator `validate_file_exists` (arg_parser.py lines 62–82): the path must exist,
be a regular file, and have positive size; otherwise `ArgumentTypeError`. -/
def validate_file_exists : FileStat → Bool
  | .missing => false
  | .notAFile => false
  | .regular lines => !lines.isEmpty

/-- Value of a non-empty all-digit character list. -/
def digitsVal : List Char → Nat → Option Nat
  | [], acc => some acc
  | c :: cs, acc =>
    match decodeDigit c with
    | some k => digitsVal cs (acc * 10 + k)
    | none => none

/-- One `strptime` numeric field: non-empty, all digits, at most `maxLen`
digits. -/
def parseField (s : String) (maxLen : Nat) : Option Nat :=
  if s.data = [] ∨ maxLen < s.data.length then none
  else digitsVal s.data 0

/-- Model of `datetime.strptime(date_string, "%Y-%m-%d")`, modelled on dash-separated
all-digit fields: up to 4 digits of year, up to 2 of month and day, with
`datetime`'s range validation. -/
def strptimeYMD (s : String) : Option (Nat × Nat × Nat) :=
  match (splitOnChar '-' s.data).map List.asString with
  | [ys, ms, ds] =>
    match parseField ys 4, parseField ms 2, parseField ds 2 with
    | some y, some m, some d =>
      if 1 ≤ y ∧ y ≤ 9999 ∧ 1 ≤ m ∧ m ≤ 12 ∧ 1 ≤ d ∧ d ≤ daysInMonth y m then
        some (y, m, d)
      else none
    | _, _, _ => none
  | _ => none

/-- The validator `validate_date_format`: the date argument must parse under `%Y-%m-%d`,
otherwise `ArgumentTypeError`. -/
def validate_date_format (s : String) : Bool := (strptimeYMD s).isSome

/-- The exit status of `main` as a function of the file state and the date
argument. `argparse` turns an `ArgumentTypeError` from either validator into
`parser.error`, which exits with status 2 before `main`'s `try` body runs;
with valid arguments, `main` returns 0 on success and 1 when `process`
raises (main.py lines 20–47). -/
def mainExit (fs : FileStat) (dateArg : String) : Nat :=
  if !validate_file_exists fs || !validate_date_format dateArg then 2
  else
    match fs with
    | .regular lines =>
      match process dateArg lines with
      | .ok _ => 0
      | .error _ => 1
    | _ => 2

/-! ### Order infrastructure: `pyStrLt` agrees with the `String` order -/

theorem pyStrLtAux_iff (as bs : List Char) :
    pyStrLtAux as bs = true ↔ List.Lex (· < ·) as bs := by
  induction as generalizing bs with
  | nil =>
    cases bs with
    | nil => simp [pyStrLtAux]
    | cons b bs =>
      simp only [pyStrLtAux, true_iff]
      exact List.Lex.nil
  | cons a as ih =>
    cases bs with
    | nil => simp [pyStrLtAux]
    | cons b bs =>
      simp only [pyStrLtAux]
      by_cases hab : a < b
      · simp only [if_pos hab, true_iff]
        exact List.Lex.rel hab
      · simp only [if_neg hab]
        by_cases hba : b < a
        · simp only [if_pos hba, Bool.false_eq_true, false_iff]
          intro h
          cases h with
          | cons h => exact lt_irrefl a hba
          | rel h => exact hab h
        · have heq : a = b := le_antisymm (not_lt.1 hba) (not_lt.1 hab)
          subst heq
          simp only [if_neg hba, List.Lex.cons_iff]
          exact ih bs

theorem pyStrLt_iff (s t : String) : pyStrLt s t = true ↔ s < t := by
  rw [String.lt_iff_toList_lt]
  exact pyStrLtAux_iff s.data t.data

theorem pyStrLt_eq_false_iff (s t : String) : pyStrLt s t = false ↔ ¬ s < t := by
  rw [← pyStrLt_iff]
  simp

/-! ### `pySorted` is Mathlib's insertion sort for the `String` order -/

theorem insertSorted_eq (x : String) (l : List String) :
    insertSorted x l = List.orderedInsert (· ≤ ·) x l := by
  induction l with
  | nil => rfl
  | cons y ys ih =>
    simp only [insertSorted, List.orderedInsert]
    rcases le_or_lt x y with h | h
    · rw [(pyStrLt_eq_false_iff y x).2 (not_lt.2 h), if_pos h]
      simp
    · rw [(pyStrLt_iff y x).2 h, if_neg (not_le.2 h), ih]
      simp

theorem pySorted_eq (l : List String) : pySorted l = List.insertionSort (· ≤ ·) l := by
  induction l with
  | nil => rfl
  | cons y ys ih =>
    show insertSorted y (pySorted ys) = List.insertionSort (· ≤ ·) (y :: ys)
    rw [List.insertionSort, ih, insertSorted_eq]

theorem pySorted_sorted (l : List String) : List.Sorted (· ≤ ·) (pySorted l) := by
  rw [pySorted_eq]
  exact List.sorted_insertionSort (· ≤ ·) l

theorem pySorted_perm (l : List String) : (pySorted l).Perm l := by
  rw [pySorted_eq]
  exact List.perm_insertionSort (· ≤ ·) l

theorem pySorted_eq_of_perm {l₁ l₂ : List String} (h : l₁.Perm l₂) :
    pySorted l₁ = pySorted l₂ := by
  refine List.eq_of_perm_of_sorted ?_ (pySorted_sorted l₁) (pySorted_sorted l₂)
  exact ((pySorted_perm l₁).trans h).trans (pySorted_perm l₂).symm

/-! ### Counter-table lemmas -/

theorem lookupCount_incr_self (tbl : List (String × Nat)) (c : String) :
    lookupCount (incr tbl c) c = lookupCount tbl c + 1 := by
  induction tbl with
  | nil => simp [incr, lookupCount]
  | cons p rest ih =>
    obtain ⟨k, v⟩ := p
    by_cases hk : k = c
    · simp [incr, lookupCount, hk]
    · simp [incr, lookupCount, hk, ih]

theorem lookupCount_incr_ne (tbl : List (String × Nat)) (c c' : String) (h : c ≠ c') :
    lookupCount (incr tbl c) c' = lookupCount tbl c' := by
  induction tbl with
  | nil => simp [incr, lookupCount, h]
  | cons p rest ih =>
    obtain ⟨k, v⟩ := p
    by_cases hk : k = c
    · subst hk
      simp [incr, lookupCount, h]
    · simp [incr, lookupCount, hk, ih]

theorem sum_incr (tbl : List (String × Nat)) (c : String) :
    ((incr tbl c).map Prod.snd).sum = (tbl.map Prod.snd).sum + 1 := by
  induction tbl with
  | nil => simp [incr]
  | cons p rest ih =>
    obtain ⟨k, v⟩ := p
    by_cases hk : k = c
    · simp [incr, hk]
      omega
    · simp [incr, hk, ih]
      omega

theorem mem_incr (tbl : List (String × Nat)) (c : String) (p : String × Nat)
    (hp : p ∈ incr tbl c) : p.1 = c ∨ p ∈ tbl := by
  induction tbl with
  | nil =>
    simp [incr] at hp
    subst hp
    exact Or.inl rfl
  | cons q rest ih =>
    obtain ⟨k, v⟩ := q
    by_cases hk : k = c
    · simp only [incr, if_pos hk] at hp
      rcases List.mem_cons.1 hp with h | h
      · subst h; exact Or.inl hk
      · exact Or.inr (List.mem_cons_of_mem _ h)
    · simp only [incr, if_neg hk] at hp
      rcases List.mem_cons.1 hp with h | h
      · subst h; exact Or.inr (List.mem_cons_self _ _)
      · rcases ih h with h' | h'
        · exact Or.inl h'
        · exact Or.inr (List.mem_cons_of_mem _ h')

theorem pos_of_mem_incr (tbl : List (String × Nat)) (c : String)
    (htbl : ∀ p ∈ tbl, 1 ≤ p.2) (p : String × Nat) (hp : p ∈ incr tbl c) : 1 ≤ p.2 := by
  induction tbl with
  | nil =>
    simp [incr] at hp
    subst hp
    exact le_refl 1
  | cons q rest ih =>
    obtain ⟨k, v⟩ := q
    by_cases hk : k = c
    · simp only [incr, if_pos hk] at hp
      rcases List.mem_cons.1 hp with h | h
      · subst h; omega
      · exact htbl p (List.mem_cons_of_mem _ h)
    · simp only [incr, if_neg hk] at hp
      rcases List.mem_cons.1 hp with h | h
      · subst h; exact htbl (k, v) (List.mem_cons_self _ _)
      · exact ih (fun q hq => htbl q (List.mem_cons_of_mem _ hq)) h

theorem keys_incr_nodup (tbl : List (String × Nat)) (c : String)
    (h : (tbl.map Prod.fst).Nodup) : ((incr tbl c).map Prod.fst).Nodup := by
  induction tbl with
  | nil => simp [incr]
  | cons q rest ih =>
    obtain ⟨k, v⟩ := q
    simp only [List.map_cons, List.nodup_cons] at h
    by_cases hk : k = c
    · simp only [incr, if_pos hk, List.map_cons, List.nodup_cons]
      exact h
    · simp only [incr, if_neg hk, List.map_cons, List.nodup_cons]
      constructor
      · intro hmem
        rcases List.mem_map.1 hmem with ⟨p, hp, hpk⟩
        rcases mem_incr rest c p hp with h1 | h1
        · exact hk (hpk ▸ h1.symm ▸ rfl)
        · exact h.1 (List.mem_map.2 ⟨p, h1, hpk⟩)
      · exact ih h.2

/-! ### Scan-loop lemmas -/

/-- Whether this record is counted: it is on the target date with identifier `c`. -/
def onDateFor (target c : String) (r : String × String) : Bool :=
  decide (r.1 = c ∧ extract_date r.2 = some target)

/-- Whether this record is on the target date. -/
def onDate (target : String) (r : String × String) : Bool :=
  decide (extract_date r.2 = some target)

theorem pyStrLt_self_eq_false (s : String) : pyStrLt s s = false :=
  (pyStrLt_eq_false_iff s s).2 (lt_irrefl s)

theorem visited_cons (target : String) (r : String × String) (rest : List (String × String)) :
    visited target (r :: rest)
      = r :: (if stopsScan target r then [] else visited target rest) := by
  obtain ⟨cookie, ts⟩ := r
  cases h : extract_date ts with
  | none => simp [visited, stopsScan, h]
  | some d =>
    by_cases hd : d = target
    · have hlt : pyStrLt d target = false := by rw [hd]; exact pyStrLt_self_eq_false target
      simp [visited, stopsScan, h, hd, hlt, pyStrLt_self_eq_false]
    · by_cases hlt : pyStrLt d target = true
      · simp [visited, stopsScan, h, hd, hlt]
      · simp [visited, stopsScan, h, hd, Bool.of_not_eq_true hlt]

theorem stopsScan_ne_target {target : String} {r : String × String}
    (h : stopsScan target r = true) :
    onDate target r = false ∧ ∀ c, onDateFor target c r = false := by
  simp only [stopsScan] at h
  cases he : extract_date r.2 with
  | none => simp [onDate, onDateFor, he]
  | some d =>
    rw [he] at h
    have hne : d ≠ target := ne_of_lt ((pyStrLt_iff d target).1 h)
    simp [onDate, onDateFor, he, hne]

theorem countAux_lookup (target c : String) (l : List (String × String))
    (acc : List (String × Nat)) :
    lookupCount (countAux target l acc) c
      = lookupCount acc c + (visited target l).countP (onDateFor target c) := by
  induction l generalizing acc with
  | nil => simp [countAux, visited]
  | cons r rest ih =>
    obtain ⟨cookie, ts⟩ := r
    cases h : extract_date ts with
    | none =>
      have hf : onDateFor target c (cookie, ts) = false := by simp [onDateFor, h]
      simp only [countAux, visited, h]
      rw [ih, List.countP_cons, hf]
      simp
    | some d =>
      by_cases hd : d = target
      · have hlt : pyStrLt d target = false := by rw [hd]; exact pyStrLt_self_eq_false target
        simp only [countAux, visited, h, if_pos hd, hlt, Bool.false_eq_true, if_false]
        rw [ih, List.countP_cons]
        by_cases hc : cookie = c
        · have ht : onDateFor target c (cookie, ts) = true := by simp [onDateFor, h, hd, hc]
          rw [ht, ← hc, lookupCount_incr_self]
          have h1 : (if (true = true) then (1 : Nat) else 0) = 1 := rfl
          rw [h1]
          omega
        · have hf : onDateFor target c (cookie, ts) = false := by simp [onDateFor, hc]
          rw [hf, lookupCount_incr_ne _ _ _ hc]
          have h0 : (if (false = true) then (1 : Nat) else 0) = 0 := rfl
          rw [h0]
          omega
      · have hf : onDateFor target c (cookie, ts) = false := by simp [onDateFor, h, hd]
        by_cases hlt : pyStrLt d target = true
        · simp only [countAux, visited, h, if_neg hd, hlt, if_true]
          rw [List.countP_cons, hf]
          simp [List.countP_nil]
        · have hlt' : pyStrLt d target = false := Bool.of_not_eq_true hlt
          simp only [countAux, visited, h, if_neg hd, hlt', Bool.false_eq_true, if_false]
          rw [ih, List.countP_cons, hf]
          simp

theorem countAux_sum (target : String) (l : List (String × String))
    (acc : List (String × Nat)) :
    ((countAux target l acc).map Prod.snd).sum
      = (acc.map Prod.snd).sum + (visited target l).countP (onDate target) := by
  induction l generalizing acc with
  | nil => simp [countAux, visited]
  | cons r rest ih =>
    obtain ⟨cookie, ts⟩ := r
    cases h : extract_date ts with
    | none =>
      have hf : onDate target (cookie, ts) = false := by simp [onDate, h]
      simp only [countAux, visited, h]
      rw [ih, List.countP_cons, hf]
      simp
    | some d =>
      by_cases hd : d = target
      · have hlt : pyStrLt d target = false := by rw [hd]; exact pyStrLt_self_eq_false target
        have ht : onDate target (cookie, ts) = true := by simp [onDate, h, hd]
        simp only [countAux, visited, h, if_pos hd, hlt, Bool.false_eq_true, if_false]
        rw [ih, List.countP_cons, ht, sum_incr]
        have h1 : (if (true = true) then (1 : Nat) else 0) = 1 := rfl
        rw [h1]
        omega
      · have hf : onDate target (cookie, ts) = false := by simp [onDate, h, hd]
        by_cases hlt : pyStrLt d target = true
        · simp only [countAux, visited, h, if_neg hd, hlt, if_true]
          rw [List.countP_cons, hf]
          simp [List.countP_nil]
        · have hlt' : pyStrLt d target = false := Bool.of_not_eq_true hlt
          simp only [countAux, visited, h, if_neg hd, hlt', Bool.false_eq_true, if_false]
          rw [ih, List.countP_cons, hf]
          simp

theorem countAux_eq_countAux_visited (target : String) (l : List (String × String))
    (acc : List (String × Nat)) :
    countAux target l acc = countAux target (visited target l) acc := by
  induction l generalizing acc with
  | nil => simp [countAux, visited]
  | cons r rest ih =>
    obtain ⟨cookie, ts⟩ := r
    cases h : extract_date ts with
    | none =>
      simp only [countAux, visited, h]
      exact ih acc
    | some d =>
      by_cases hd : d = target
      · have hlt : pyStrLt d target = false := by rw [hd]; exact pyStrLt_self_eq_false target
        simp only [countAux, visited, h, if_pos hd, hlt, Bool.false_eq_true, if_false]
        exact ih (incr acc cookie)
      · by_cases hlt : pyStrLt d target = true
        · simp only [countAux, visited, h, if_neg hd, hlt, if_true]
        · have hlt' : pyStrLt d target = false := Bool.of_not_eq_true hlt
          simp only [countAux, visited, h, if_neg hd, hlt', Bool.false_eq_true, if_false]
          exact ih acc

theorem visited_eq_takeWhile (target : String) (l : List (String × String)) :
    visited target l
      = l.takeWhile (fun r => !stopsScan target r)
        ++ (l.dropWhile (fun r => !stopsScan target r)).take 1 := by
  induction l with
  | nil => simp [visited]
  | cons r rest ih =>
    rw [visited_cons]
    by_cases hs : stopsScan target r = true
    · rw [if_pos hs]
      rw [List.takeWhile_cons, List.dropWhile_cons]
      simp [hs]
    · have hs' : stopsScan target r = false := Bool.of_not_eq_true hs
      rw [if_neg hs]
      rw [List.takeWhile_cons, List.dropWhile_cons]
      simp only [hs', Bool.not_false, if_true, ih]
      simp

theorem keys_countAux_nodup (target : String) (l : List (String × String))
    (acc : List (String × Nat)) (hacc : (acc.map Prod.fst).Nodup) :
    ((countAux target l acc).map Prod.fst).Nodup := by
  induction l generalizing acc with
  | nil => simpa [countAux] using hacc
  | cons r rest ih =>
    obtain ⟨cookie, ts⟩ := r
    cases h : extract_date ts with
    | none =>
      simp only [countAux, h]
      exact ih acc hacc
    | some d =>
      by_cases hd : d = target
      · simp only [countAux, h, if_pos hd]
        exact ih (incr acc cookie) (keys_incr_nodup acc cookie hacc)
      · by_cases hlt : pyStrLt d target = true
        · simp only [countAux, h, if_neg hd, hlt, if_true]
          exact hacc
        · have hlt' : pyStrLt d target = false := Bool.of_not_eq_true hlt
          simp only [countAux, h, if_neg hd, hlt', Bool.false_eq_true, if_false]
          exact ih acc hacc

theorem pos_of_mem_countAux (target : String) (l : List (String × String))
    (acc : List (String × Nat)) (hacc : ∀ p ∈ acc, 1 ≤ p.2) :
    ∀ p ∈ countAux target l acc, 1 ≤ p.2 := by
  induction l generalizing acc with
  | nil => simpa [countAux] using hacc
  | cons r rest ih =>
    obtain ⟨cookie, ts⟩ := r
    cases h : extract_date ts with
    | none =>
      simp only [countAux, h]
      exact ih acc hacc
    | some d =>
      by_cases hd : d = target
      · simp only [countAux, h, if_pos hd]
        exact ih (incr acc cookie) (pos_of_mem_incr acc cookie hacc)
      · by_cases hlt : pyStrLt d target = true
        · simp only [countAux, h, if_neg hd, hlt, if_true]
          exact hacc
        · have hlt' : pyStrLt d target = false := Bool.of_not_eq_true hlt
          simp only [countAux, h, if_neg hd, hlt', Bool.false_eq_true, if_false]
          exact ih acc hacc

theorem mem_countAux_origin (target : String) (l : List (String × String))
    (acc : List (String × Nat)) :
    ∀ p ∈ countAux target l acc,
      (∃ q ∈ acc, q.1 = p.1) ∨ ∃ r ∈ l, r.1 = p.1 ∧ extract_date r.2 = some target := by
  induction l generalizing acc with
  | nil =>
    intro p hp
    simp only [countAux] at hp
    exact Or.inl ⟨p, hp, rfl⟩
  | cons r rest ih =>
    obtain ⟨cookie, ts⟩ := r
    intro p hp
    cases h : extract_date ts with
    | none =>
      simp only [countAux, h] at hp
      rcases ih acc p hp with h' | ⟨r', hr', hr1, hr2⟩
      · exact Or.inl h'
      · exact Or.inr ⟨r', List.mem_cons_of_mem _ hr', hr1, hr2⟩
    | some d =>
      by_cases hd : d = target
      · simp only [countAux, h, if_pos hd] at hp
        rcases ih (incr acc cookie) p hp with ⟨q, hq, hq1⟩ | ⟨r', hr', hr1, hr2⟩
        · rcases mem_incr acc cookie q hq with h1 | h1
          · refine Or.inr ⟨(cookie, ts), List.mem_cons_self _ _, ?_, by rw [h, hd]⟩
            rw [← hq1, h1]
          · exact Or.inl ⟨q, h1, hq1⟩
        · exact Or.inr ⟨r', List.mem_cons_of_mem _ hr', hr1, hr2⟩
      · by_cases hlt : pyStrLt d target = true
        · simp only [countAux, h, if_neg hd, hlt, if_true] at hp
          exact Or.inl ⟨p, hp, rfl⟩
        · have hlt' : pyStrLt d target = false := Bool.of_not_eq_true hlt
          simp only [countAux, h, if_neg hd, hlt', Bool.false_eq_true, if_false] at hp
          rcases ih acc p hp with h' | ⟨r', hr', hr1, hr2⟩
          · exact Or.inl h'
          · exact Or.inr ⟨r', List.mem_cons_of_mem _ hr', hr1, hr2⟩

/-! ### Skipping malformed records -/

theorem read_cookie_log_skip (hd m : String) (before after : List String)
    (hm : readRow (parseRow m) = none) :
    read_cookie_log (hd :: (before ++ m :: after))
      = read_cookie_log (hd :: (before ++ after)) := by
  simp [read_cookie_log, List.filterMap_append, List.filterMap_cons, hm]

theorem countAux_skip_invalid (target c ts : String) (rb ra : List (String × String))
    (acc : List (String × Nat)) (hts : extract_date ts = none) :
    countAux target (rb ++ (c, ts) :: ra) acc = countAux target (rb ++ ra) acc := by
  induction rb generalizing acc with
  | nil => simp only [List.nil_append, countAux, hts]
  | cons r rb' ih =>
    obtain ⟨c', ts'⟩ := r
    cases h : extract_date ts' with
    | none => simp only [List.cons_append, countAux, h]; exact ih acc
    | some d =>
      by_cases hd : d = target
      · simp only [List.cons_append, countAux, h, if_pos hd]
        exact ih (incr acc c')
      · by_cases hlt : pyStrLt d target = true
        · simp only [List.cons_append, countAux, h, if_neg hd, hlt, if_true]
        · have hlt' : pyStrLt d target = false := Bool.of_not_eq_true hlt
          simp only [List.cons_append, countAux, h, if_neg hd, hlt', Bool.false_eq_true,
            if_false]
          exact ih acc

/-! ### Winner-selector lemmas -/

theorem le_foldl_max (l : List (String × Nat)) (a : Nat) :
    a ≤ l.foldl (fun m p => Nat.max m p.2) a := by
  induction l generalizing a with
  | nil => simp
  | cons q rest ih => exact le_trans (Nat.le_max_left a q.2) (ih (Nat.max a q.2))

theorem snd_le_foldl_max (l : List (String × Nat)) (a : Nat) :
    ∀ p ∈ l, p.2 ≤ l.foldl (fun m p => Nat.max m p.2) a := by
  induction l generalizing a with
  | nil => intro p hp; cases hp
  | cons q rest ih =>
    intro p hp
    rcases List.mem_cons.1 hp with h | h
    · subst h
      exact le_trans (Nat.le_max_right a p.2) (le_foldl_max rest (Nat.max a p.2))
    · exact ih (Nat.max a q.2) p h

theorem foldl_max_cases (l : List (String × Nat)) (a : Nat) :
    l.foldl (fun m p => Nat.max m p.2) a = a
      ∨ ∃ p ∈ l, l.foldl (fun m p => Nat.max m p.2) a = p.2 := by
  induction l generalizing a with
  | nil => exact Or.inl rfl
  | cons q rest ih =>
    rcases ih (Nat.max a q.2) with h | ⟨p, hp, hp2⟩
    · rcases le_total a q.2 with hm | hm
      · refine Or.inr ⟨q, List.mem_cons_self _ _, ?_⟩
        have hmax : Nat.max a q.2 = q.2 := by show a ⊔ q.2 = q.2; exact sup_of_le_right hm
        simp only [List.foldl]
        rw [hmax] at h ⊢
        exact h
      · refine Or.inl ?_
        have hmax : Nat.max a q.2 = a := by show a ⊔ q.2 = a; exact sup_of_le_left hm
        simp only [List.foldl]
        rw [hmax] at h ⊢
        exact h
    · exact Or.inr ⟨p, List.mem_cons_of_mem _ hp, by simp only [List.foldl, hp2]⟩

theorem le_maxCount_of_mem {tbl : List (String × Nat)} {p : String × Nat} (hp : p ∈ tbl) :
    p.2 ≤ maxCount tbl :=
  snd_le_foldl_max tbl 0 p hp

theorem exists_maxCount_mem {tbl : List (String × Nat)} (hne : tbl ≠ []) :
    ∃ p ∈ tbl, p.2 = maxCount tbl := by
  rcases foldl_max_cases tbl 0 with h | ⟨p, hp, hp2⟩
  · cases tbl with
    | nil => exact absurd rfl hne
    | cons q rest =>
      have hq : q.2 ≤ maxCount (q :: rest) := le_maxCount_of_mem (List.mem_cons_self _ _)
      have h0 : maxCount (q :: rest) = 0 := h
      exact ⟨q, List.mem_cons_self _ _, by omega⟩
  · exact ⟨p, hp, hp2.symm⟩

theorem find_most_active_eq (tbl : List (String × Nat)) (hne : tbl ≠ []) :
    find_most_active tbl
      = pySorted ((tbl.filter (fun p => p.2 == maxCount tbl)).map Prod.fst) := by
  cases tbl with
  | nil => exact absurd rfl hne
  | cons q rest => rfl

theorem mem_find_most_active {tbl : List (String × Nat)} {c : String} :
    c ∈ find_most_active tbl ↔ ∃ p ∈ tbl, p.1 = c ∧ p.2 = maxCount tbl := by
  cases htbl : tbl with
  | nil => simp [find_most_active]
  | cons q rest =>
    rw [← htbl, find_most_active_eq tbl (by rw [htbl]; exact List.cons_ne_nil q rest)]
    rw [(pySorted_perm _).mem_iff]
    simp only [List.mem_map, List.mem_filter, beq_iff_eq]
    constructor
    · rintro ⟨p, ⟨hp, hp2⟩, hp1⟩
      exact ⟨p, hp, hp1, hp2⟩
    · rintro ⟨p, hp, hp1, hp2⟩
      exact ⟨p, ⟨hp, hp2⟩, hp1⟩

theorem find_most_active_sorted (tbl : List (String × Nat)) :
    List.Sorted (· ≤ ·) (find_most_active tbl) := by
  cases tbl with
  | nil => simp [find_most_active]
  | cons q rest => exact pySorted_sorted _

theorem find_most_active_nodup (tbl : List (String × Nat))
    (hkeys : (tbl.map Prod.fst).Nodup) : (find_most_active tbl).Nodup := by
  cases htbl : tbl with
  | nil => simp [find_most_active]
  | cons q rest =>
    rw [← htbl, find_most_active_eq tbl (by rw [htbl]; exact List.cons_ne_nil q rest)]
    rw [(pySorted_perm _).nodup_iff]
    exact ((List.filter_sublist tbl).map Prod.fst).nodup hkeys

theorem maxCount_perm {t1 t2 : List (String × Nat)} (h : t1.Perm t2) :
    maxCount t1 = maxCount t2 := by
  haveI : RightCommutative (fun (m : Nat) (p : String × Nat) => Nat.max m p.2) :=
    ⟨fun b a1 a2 => Nat.max_right_comm b a1.2 a2.2⟩
  exact h.foldl_eq 0

theorem find_most_active_perm {t1 t2 : List (String × Nat)} (h : t1.Perm t2) :
    find_most_active t1 = find_most_active t2 := by
  cases h1 : t1 with
  | nil =>
    have h2 : t2 = [] := by
      rw [h1] at h
      exact h.symm.eq_nil
    rw [h2]
  | cons q rest =>
    have h1ne : t1 ≠ [] := by rw [h1]; exact List.cons_ne_nil q rest
    have h2ne : t2 ≠ [] := by
      intro h2
      rw [h2] at h
      exact List.cons_ne_nil q rest (by rw [← h1]; exact h.eq_nil)
    rw [← h1, find_most_active_eq t1 h1ne, find_most_active_eq t2 h2ne, maxCount_perm h]
    exact pySorted_eq_of_perm ((h.filter _).map Prod.fst)

/-! ### Helper lemmas for early-exit bookkeeping -/

theorem dropWhile_head_not {α : Type} (p : α → Bool) (l : List α) (r : α) (rest : List α)
    (h : l.dropWhile p = r :: rest) : p r = false := by
  induction l with
  | nil => cases h
  | cons x xs ih =>
    rw [List.dropWhile_cons] at h
    by_cases hx : p x = true
    · rw [if_pos hx] at h
      exact ih h
    · rw [if_neg hx] at h
      cases h
      exact Bool.of_not_eq_true hx

theorem countP_takeWhile_not {α : Type} (p : α → Bool) (l : List α) :
    (l.takeWhile (fun r => !p r)).countP p = 0 := by
  rw [List.countP_eq_zero]
  intro a ha
  have := List.mem_takeWhile_imp ha
  simp at this
  simp [this]

/-! ### Claim theorems -/

/-- C1: on a stream whose parseable records carry non-increasing dates
(the descending-sort precondition, phrased on the extracted dates), the
aggregator stops at the first record whose date is strictly before the
target: the records it visits are exactly the longest prefix of
non-stopping records plus the first stopping record when one exists; every
visited record either has date ≥ target (whenever it parses) or is a
stopping record; at most one visited record is a stopping record — exactly
one when the stream contains one, and then it is the last record visited;
and the final Counter Table is computed from the visited records alone. -/
theorem C1_early_exit (target : String) (l : List (String × String))
    (hsorted : (l.filterMap (fun r => extract_date r.2)).Pairwise
      (fun a b => pyStrLt a b = false)) :
    visited target l
        = l.takeWhile (fun r => !stopsScan target r)
          ++ (l.dropWhile (fun r => !stopsScan target r)).take 1
    ∧ (∀ r ∈ visited target l,
        (∀ d, extract_date r.2 = some d → target ≤ d) ∨ stopsScan target r = true)
    ∧ (visited target l).countP (stopsScan target) ≤ 1
    ∧ ((∃ r ∈ l, stopsScan target r = true)
        → (visited target l).countP (stopsScan target) = 1
          ∧ ∃ r', (visited target l).getLast? = some r' ∧ stopsScan target r' = true)
    ∧ count_cookies_for_date target l = count_cookies_for_date target (visited target l) := by
  clear hsorted
  have hvis := visited_eq_takeWhile target l
  refine ⟨hvis, ?_, ?_, ?_, countAux_eq_countAux_visited target l []⟩
  · intro r hr
    rw [hvis] at hr
    rcases List.mem_append.1 hr with h | h
    · left
      intro d hd
      have hp := List.mem_takeWhile_imp h
      simp only [Bool.not_eq_true'] at hp
      simp only [stopsScan, hd] at hp
      exact not_lt.1 (fun hlt => by simp [(pyStrLt_iff d target).2 hlt] at hp)
    · right
      cases hdrop : l.dropWhile (fun r => !stopsScan target r) with
      | nil => rw [hdrop] at h; cases h
      | cons r0 rest0 =>
        rw [hdrop] at h
        simp only [List.take, List.mem_singleton] at h
        have h0 := dropWhile_head_not _ l r0 rest0 hdrop
        rw [h]
        simpa using h0
  · rw [hvis, List.countP_append]
    rw [countP_takeWhile_not (stopsScan target) l]
    have : ((l.dropWhile (fun r => !stopsScan target r)).take 1).countP (stopsScan target)
        ≤ ((l.dropWhile (fun r => !stopsScan target r)).take 1).length :=
      List.countP_le_length _
    have hlen := List.length_take_le 1 (l.dropWhile (fun r => !stopsScan target r))
    omega
  · rintro ⟨r, hr, hstop⟩
    have hne : l.dropWhile (fun r => !stopsScan target r) ≠ [] := by
      rw [Ne, List.dropWhile_eq_nil_iff]
      push_neg
      exact ⟨r, hr, by simp [hstop]⟩
    cases hdrop : l.dropWhile (fun r => !stopsScan target r) with
    | nil => exact absurd hdrop hne
    | cons r0 rest0 =>
      have hstop0 : stopsScan target r0 = true := by
        have := dropWhile_head_not _ l r0 rest0 hdrop
        simpa using this
      constructor
      · rw [hvis, List.countP_append, countP_takeWhile_not (stopsScan target) l, hdrop]
        simp [List.countP_cons, hstop0]
      · refine ⟨r0, ?_, hstop0⟩
        rw [hvis, hdrop]
        simp only [List.take]
        exact List.getLast?_concat _

/-- Witness for C1 at the spec's Scenario A stream (descending dates),
where the fourth record triggers the stop. -/
theorem C1_early_exit_witness :
    (([("c1", "2018-12-09T10:00:00+00:00"), ("c1", "2018-12-09T08:00:00+00:00"),
        ("c2", "2018-12-09T07:00:00+00:00"), ("c2", "2018-12-08T23:00:00+00:00"),
        ("c3", "2018-12-07T23:00:00+00:00")].filterMap
          (fun r => extract_date r.2)).Pairwise (fun a b => pyStrLt a b = false))
    ∧ (visited "2018-12-09"
        [("c1", "2018-12-09T10:00:00+00:00"), ("c1", "2018-12-09T08:00:00+00:00"),
         ("c2", "2018-12-09T07:00:00+00:00"), ("c2", "2018-12-08T23:00:00+00:00"),
         ("c3", "2018-12-07T23:00:00+00:00")]).countP (stopsScan "2018-12-09") ≤ 1 := by
  constructor
  · decide
  · exact (C1_early_exit "2018-12-09" _ (by decide)).2.2.1

/-- C3: for every input stream — hence for every prefix of a stream, which
covers every intermediate point of the scan — the count stored for
identifier `c` in the table built by `_count_cookies_for_date` equals the
number of records the scan consumed whose identifier is `c` and whose
extracted date is the target date; and the sum of all counts equals the
total number of consumed on-target-date records (the scan's
`relevant_entries`, the `N` of the claim). -/
theorem C3_counter_invariant (target : String) (l : List (String × String)) :
    (∀ c, lookupCount (count_cookies_for_date target l) c
        = (visited target l).countP (onDateFor target c))
    ∧ ((count_cookies_for_date target l).map Prod.snd).sum
        = (visited target l).countP (onDate target) := by
  constructor
  · intro c
    have h := countAux_lookup target c l []
    simpa [lookupCount] using h
  · have h := countAux_sum target l []
    simpa using h

/-- C2: the Winner Selector returns `[]` on the empty table; on any table it
returns exactly the identifiers whose count equals the maximum count, in
ascending lexicographic order with no duplicates (the unique-keys invariant
of a Python dict is the `hkeys` hypothesis). -/
theorem C2_winner_selector (tbl : List (String × Nat))
    (hkeys : (tbl.map Prod.fst).Nodup) :
    (tbl = [] → find_most_active tbl = [])
    ∧ (∀ c, c ∈ find_most_active tbl ↔ ∃ p ∈ tbl, p.1 = c ∧ p.2 = maxCount tbl)
    ∧ List.Sorted (· ≤ ·) (find_most_active tbl)
    ∧ (find_most_active tbl).Nodup := by
  refine ⟨?_, ?_, find_most_active_sorted tbl, find_most_active_nodup tbl hkeys⟩
  · rintro rfl
    rfl
  · intro c
    exact mem_find_most_active

/-- Witness for C2 at the spec's Scenario B table (a tie). -/
theorem C2_winner_selector_witness :
    (([("cookieB", 3), ("cookieA", 3), ("cookieC", 1)].map
        (Prod.fst (α := String) (β := Nat))).Nodup)
    ∧ (find_most_active [("cookieB", 3), ("cookieA", 3), ("cookieC", 1)]).Nodup := by
  refine ⟨by decide, ?_⟩
  exact (C2_winner_selector [("cookieB", 3), ("cookieA", 3), ("cookieC", 1)]
    (by decide)).2.2.2

/-- C9: the Winner Selector is deterministic and idempotent: re-running it
on the same table gives the same Result, and running it on two tables that
are equal as dictionaries (permutations of the same key/count pairs — a
Python dict is insertion-ordered, so two equal dicts may list their items
in different orders) gives the same Result. -/
theorem C9_selector_deterministic (t1 t2 : List (String × Nat)) (h : t1.Perm t2) :
    find_most_active t1 = find_most_active t1
    ∧ find_most_active t1 = find_most_active t2 :=
  ⟨rfl, find_most_active_perm h⟩

/-- Witness for C9 on two insertion orders of the same table. -/
theorem C9_selector_deterministic_witness :
    find_most_active [("a", 2), ("b", 2)] = find_most_active [("b", 2), ("a", 2)] :=
  (C9_selector_deterministic [("a", 2), ("b", 2)] [("b", 2), ("a", 2)]
    (by decide)).2

/-- C10: every count in the final Counter Table is at least 1 (a key is
created only when a record is counted); every identifier in the Result
occurred in at least one valid record on the target date; and a non-empty
Result forces a maximum count of at least 1. -/
theorem C10_counts_positive (target : String) (l : List (String × String)) :
    (∀ p ∈ count_cookies_for_date target l, 1 ≤ p.2)
    ∧ (∀ c ∈ find_most_active (count_cookies_for_date target l),
        ∃ r ∈ l, r.1 = c ∧ extract_date r.2 = some target)
    ∧ (find_most_active (count_cookies_for_date target l) ≠ []
        → 1 ≤ maxCount (count_cookies_for_date target l)) := by
  have hpos : ∀ p ∈ count_cookies_for_date target l, 1 ≤ p.2 :=
    pos_of_mem_countAux target l [] (by intro p hp; cases hp)
  refine ⟨hpos, ?_, ?_⟩
  · intro c hc
    rcases mem_find_most_active.1 hc with ⟨p, hp, hp1, _⟩
    rcases mem_countAux_origin target l [] p hp with ⟨q, hq, _⟩ | ⟨r, hr, hr1, hr2⟩
    · cases hq
    · exact ⟨r, hr, by rw [hr1, hp1], hr2⟩
  · intro hne
    have htne : count_cookies_for_date target l ≠ [] := by
      intro h0
      rw [h0] at hne
      exact hne rfl
    rcases exists_maxCount_mem htne with ⟨p, hp, hp2⟩
    have := hpos p hp
    omega

/-- C4: a malformed line (wrong field count, or an empty field after
trimming) is dropped by the reader without affecting any other line, and a
record whose timestamp does not parse is skipped by the scan loop without
stopping it — in both cases the surrounding records are processed exactly
as they would be with the bad input removed. -/
theorem C4_malformed_skipped (target hd m c ts : String) (before after : List String)
    (rb ra : List (String × String))
    (hm : readRow (parseRow m) = none) (hts : extract_date ts = none) :
    read_cookie_log (hd :: (before ++ m :: after))
        = read_cookie_log (hd :: (before ++ after))
    ∧ count_cookies_for_date target (rb ++ (c, ts) :: ra)
        = count_cookies_for_date target (rb ++ ra) :=
  ⟨read_cookie_log_skip hd m before after hm,
   countAux_skip_invalid target c ts rb ra [] hts⟩

/-- Witness for C4: a one-field line and an unparseable timestamp, each
interspersed between valid records. -/
theorem C4_malformed_skipped_witness :
    readRow (parseRow "only-one-field") = none
    ∧ extract_date "not-a-timestamp" = none
    ∧ read_cookie_log ["cookie,timestamp",
        "a,2018-12-09T10:00:00+00:00", "only-one-field", "b,2018-12-09T09:00:00+00:00"]
      = read_cookie_log ["cookie,timestamp",
        "a,2018-12-09T10:00:00+00:00", "b,2018-12-09T09:00:00+00:00"] := by
  refine ⟨by decide, by decide, ?_⟩
  exact (C4_malformed_skipped "2018-12-09" "cookie,timestamp" "only-one-field"
    "x" "not-a-timestamp" ["a,2018-12-09T10:00:00+00:00"]
    ["b,2018-12-09T09:00:00+00:00"] [] [] (by decide) (by decide)).1

/-- C5 as stated is false: on an input with no header line at all,
`_read_cookie_log` raises `ValueError("Empty file")`, so processing
propagates a fatal error instead of returning an empty Result. -/
theorem C5_counterexample :
    process "2018-12-09" [] = Except.error "Empty file"
    ∧ process "2018-12-09" [] ≠ Except.ok [] :=
  ⟨rfl, fun h => Except.noConfusion (h.symm.trans rfl)⟩

/-- C5 amended: for an empty input file the reader raises the fatal
`ValueError("Empty file")`, which processing propagates; no Result —
empty or otherwise — is returned (the CLI additionally rejects empty
files during argument validation). -/
theorem C5_empty_file_fatal (target : String) :
    process target [] = Except.error "Empty file" := rfl

/-- C6: no single malformed line aborts the scan: processing any file that
has a header always succeeds (the reader only raises on a missing header),
and the Result on a file containing a malformed line equals the Result on
the same file with that line removed. -/
theorem C6_no_abort (target hd m : String) (before after : List String)
    (hm : readRow (parseRow m) = none) :
    (∃ res, process target (hd :: (before ++ m :: after)) = Except.ok res)
    ∧ process target (hd :: (before ++ m :: after))
        = process target (hd :: (before ++ after)) := by
  constructor
  · exact ⟨_, rfl⟩
  · simp only [process, read_cookie_log_skip hd m before after hm]

/-- Witness for C6: a file whose second data line is blank. -/
theorem C6_no_abort_witness :
    (∃ res, process "2018-12-09" ("cookie,timestamp" ::
        (["a,2018-12-09T10:00:00+00:00"] ++ "" :: [])) = Except.ok res) := by
  exact (C6_no_abort "2018-12-09" "cookie,timestamp" ""
    ["a,2018-12-09T10:00:00+00:00"] [] (by decide)).1

/-- C8 as stated is false: a missing input file is caught by
`validate_file_exists` during argument parsing, and `argparse` exits with
status 2 — the same status as a malformed date argument — so the "fatal
input error" status is not distinct from the usage-error status. Success
is status 0. -/
theorem C8_counterexample :
    mainExit FileStat.missing "2018-12-09" = 2
    ∧ mainExit (FileStat.regular ["cookie,timestamp"]) "not-a-date" = 2
    ∧ mainExit (FileStat.regular ["cookie,timestamp"]) "2018-12-09" = 0 := by
  refine ⟨rfl, ?_, ?_⟩ <;> rfl

/-- C8 amended: the CLI distinguishes success (0) from errors, but both
fatal input errors detected at validation (missing file, not a regular
file, empty file) and usage errors (malformed date) exit with the same
status 2; status 1 is reserved for failures raised after validation, so
file problems do not get a status of their own. -/
theorem C8_exit_statuses (d dBad hd : String) (lines : List String) (fs : FileStat)
    (hv : validate_date_format d = true) (hvBad : validate_date_format dBad = false) :
    mainExit (FileStat.regular (hd :: lines)) d = 0
    ∧ mainExit FileStat.missing d = 2
    ∧ mainExit FileStat.notAFile d = 2
    ∧ mainExit (FileStat.regular []) d = 2
    ∧ mainExit fs dBad = 2 := by
  refine ⟨?_, ?_, ?_, ?_, ?_⟩
  · simp [mainExit, validate_file_exists, hv, process, read_cookie_log, Except.map]
  · simp [mainExit, validate_file_exists]
  · simp [mainExit, validate_file_exists]
  · simp [mainExit, validate_file_exists]
  · simp [mainExit, hvBad]

/-- Witness for C8's amended statement at concrete arguments. -/
theorem C8_exit_statuses_witness :
    mainExit (FileStat.regular ["cookie,timestamp", "a,2018-12-09T10:00:00+00:00"])
        "2018-12-09" = 0
    ∧ mainExit FileStat.missing "2018-12-09" = 2
    ∧ mainExit FileStat.notAFile "nope" = 2 := by
  have h := C8_exit_statuses "2018-12-09" "nope" "cookie,timestamp"
    ["a,2018-12-09T10:00:00+00:00"] FileStat.notAFile (by decide) (by decide)
  exact ⟨h.1, h.2.1, h.2.2.2.2⟩

/-! ### Date-extraction lemmas (C7) -/

theorem digitChar_toNat {k : Nat} (hk : k ≤ 9) : (Nat.digitChar k).toNat = k + 48 := by
  interval_cases k <;> decide

theorem char_eq_of_toNat {c d : Char} (h : c.toNat = d.toNat) : c = d :=
  Char.ext (UInt32.ext h)

theorem decodeDigit_spec {c : Char} {k : Nat} (h : decodeDigit c = some k) :
    k ≤ 9 ∧ Nat.digitChar k = c := by
  unfold decodeDigit at h
  by_cases hc : c.isDigit = true
  · rw [if_pos hc] at h
    injection h with h2
    simp only [Char.isDigit, Bool.and_eq_true, decide_eq_true_eq, ge_iff_le] at hc
    have h48 : 48 ≤ c.toNat := hc.1
    have h57 : c.toNat ≤ 57 := hc.2
    have hk9 : k ≤ 9 := by omega
    refine ⟨hk9, ?_⟩
    apply char_eq_of_toNat
    rw [digitChar_toNat hk9]
    omega
  · rw [if_neg hc] at h
    cases h

theorem decode2_spec {a b : Char} {n : Nat} (h : decode2 a b = some n) :
    n ≤ 99 ∧ Nat.digitChar (n / 10 % 10) = a ∧ Nat.digitChar (n % 10) = b := by
  simp only [decode2, bind, Option.bind_eq_some, Option.pure_def,
    Option.some.injEq] at h
  rcases h with ⟨x, hx, y, hy, hn⟩
  obtain ⟨hx9, hxc⟩ := decodeDigit_spec hx
  obtain ⟨hy9, hyc⟩ := decodeDigit_spec hy
  subst hn
  refine ⟨by omega, ?_, ?_⟩
  · have e : (10 * x + y) / 10 % 10 = x := by omega
    rw [e, hxc]
  · have e : (10 * x + y) % 10 = y := by omega
    rw [e, hyc]

theorem decode4_spec {a b c d : Char} {n : Nat} (h : decode4 a b c d = some n) :
    n ≤ 9999 ∧ Nat.digitChar (n / 1000 % 10) = a ∧ Nat.digitChar (n / 100 % 10) = b
      ∧ Nat.digitChar (n / 10 % 10) = c ∧ Nat.digitChar (n % 10) = d := by
  simp only [decode4, bind, Option.bind_eq_some, Option.pure_def,
    Option.some.injEq] at h
  rcases h with ⟨x, hx, y, hy, hn⟩
  obtain ⟨hx99, hxc1, hxc2⟩ := decode2_spec hx
  obtain ⟨hy99, hyc1, hyc2⟩ := decode2_spec hy
  subst hn
  refine ⟨by omega, ?_, ?_, ?_, ?_⟩
  · have e : (100 * x + y) / 1000 % 10 = x / 10 % 10 := by omega
    rw [e, hxc1]
  · have e : (100 * x + y) / 100 % 10 = x % 10 := by omega
    rw [e, hxc2]
  · have e : (100 * x + y) / 10 % 10 = y / 10 % 10 := by omega
    rw [e, hyc1]
  · have e : (100 * x + y) % 10 = y % 10 := by omega
    rw [e, hyc2]

theorem daysInMonth_le (y m : Nat) : daysInMonth y m ≤ 31 := by
  unfold daysInMonth
  split
  · split <;> omega
  · split <;> omega

theorem fromisoformat_spec {s : String} {dt : PyDateTime}
    (h : fromisoformat s = some dt) :
    1 ≤ dt.year ∧ dt.year ≤ 9999 ∧ 1 ≤ dt.month ∧ dt.month ≤ 12
      ∧ 1 ≤ dt.day ∧ dt.day ≤ 31
      ∧ (isoDate dt.year dt.month dt.day).data = s.data.take 10 := by
  unfold fromisoformat at h
  split at h
  case h_2 => cases h
  case h_1 y1 y2 y3 y4 sep1 m1 m2 sep2 d1 d2 sepT h1c h2c sepC1 mi1 mi2 sepC2 s1 s2 sgn
      oh1 oh2 sepC3 om1 om2 heq =>
    split at h
    case isFalse => cases h
    case isTrue hcond =>
      split at h
      case h_2 => cases h
      case h_1 y mo d hh mi ss oh om hy hmo hdd hhh hmi hss hoh hom =>
        split at h
        case isFalse => cases h
        case isTrue hrange =>
          cases h
          obtain ⟨hy9999, hyc1, hyc2, hyc3, hyc4⟩ := decode4_spec hy
          obtain ⟨hmo99, hmc1, hmc2⟩ := decode2_spec hmo
          obtain ⟨hdd99, hdc1, hdc2⟩ := decode2_spec hdd
          have hd31 : d ≤ 31 := le_trans hrange.2.2.2.2.1 (daysInMonth_le y mo)
          refine ⟨hrange.1, hy9999, hrange.2.1, hrange.2.2.1, hrange.2.2.2.1, hd31, ?_⟩
          have htake : s.data.take 10 = [y1, y2, y3, y4, sep1, m1, m2, sep2, d1, d2] := by
            rw [heq]
            rfl
          rw [htake, hcond.1, hcond.2.1]
          show [Nat.digitChar (y / 1000 % 10), Nat.digitChar (y / 100 % 10),
            Nat.digitChar (y / 10 % 10), Nat.digitChar (y % 10), '-',
            Nat.digitChar (mo / 10 % 10), Nat.digitChar (mo % 10), '-',
            Nat.digitChar (d / 10 % 10), Nat.digitChar (d % 10)] = _
          rw [hyc1, hyc2, hyc3, hyc4, hmc1, hmc2, hdc1, hdc2]

theorem digitChar_lt_iff {a b : Nat} (ha : a ≤ 9) (hb : b ≤ 9) :
    Nat.digitChar a < Nat.digitChar b ↔ a < b := by
  interval_cases a <;> interval_cases b <;> decide

theorem pyStrLtAux_cons_same (c : Char) (cs cs' : List Char) :
    pyStrLtAux (c :: cs) (c :: cs') = pyStrLtAux cs cs' := by
  simp [pyStrLtAux, lt_irrefl]

theorem pyStrLtAux_two_digits {v v' : Nat} (hv : v ≤ 99) (hv' : v' ≤ 99)
    (cs cs' : List Char) :
    (pyStrLtAux (Nat.digitChar (v / 10 % 10) :: Nat.digitChar (v % 10) :: cs)
        (Nat.digitChar (v' / 10 % 10) :: Nat.digitChar (v' % 10) :: cs') = true)
      ↔ (v < v' ∨ (v = v' ∧ pyStrLtAux cs cs' = true)) := by
  have h1 : v / 10 % 10 ≤ 9 := by omega
  have h1' : v' / 10 % 10 ≤ 9 := by omega
  have h2 : v % 10 ≤ 9 := by omega
  have h2' : v' % 10 ≤ 9 := by omega
  rcases lt_trichotomy (v / 10 % 10) (v' / 10 % 10) with hc | hc | hc
  · have hlt := (digitChar_lt_iff h1 h1').2 hc
    simp only [pyStrLtAux, if_pos hlt]
    constructor
    · intro _
      left
      omega
    · intro _
      trivial
  · have hceq : Nat.digitChar (v / 10 % 10) = Nat.digitChar (v' / 10 % 10) := by rw [hc]
    have hnlt : ¬ Nat.digitChar (v / 10 % 10) < Nat.digitChar (v' / 10 % 10) := by
      rw [hceq]
      exact lt_irrefl _
    have hngt : ¬ Nat.digitChar (v' / 10 % 10) < Nat.digitChar (v / 10 % 10) := by
      rw [hceq]
      exact lt_irrefl _
    simp only [pyStrLtAux, if_neg hnlt, if_neg hngt]
    rcases lt_trichotomy (v % 10) (v' % 10) with hc2 | hc2 | hc2
    · have hlt2 := (digitChar_lt_iff h2 h2').2 hc2
      simp only [if_pos hlt2]
      constructor
      · intro _
        left
        omega
      · intro _
        trivial
    · have hceq2 : Nat.digitChar (v % 10) = Nat.digitChar (v' % 10) := by rw [hc2]
      have hnlt2 : ¬ Nat.digitChar (v % 10) < Nat.digitChar (v' % 10) := by
        rw [hceq2]
        exact lt_irrefl _
      have hngt2 : ¬ Nat.digitChar (v' % 10) < Nat.digitChar (v % 10) := by
        rw [hceq2]
        exact lt_irrefl _
      simp only [if_neg hnlt2, if_neg hngt2]
      have hveq : v = v' := by omega
      constructor
      · intro hP
        right
        exact ⟨hveq, hP⟩
      · rintro (hlt | ⟨_, hP⟩)
        · omega
        · exact hP
    · have hlt2 := (digitChar_lt_iff h2' h2).2 hc2
      have hnlt2 : ¬ Nat.digitChar (v % 10) < Nat.digitChar (v' % 10) := by
        intro hx
        exact absurd ((digitChar_lt_iff h2 h2').1 hx) (by omega)
      simp only [if_neg hnlt2, if_pos hlt2, Bool.false_eq_true, false_iff]
      rintro (hlt | ⟨heq, _⟩) <;> omega
  · have hlt := (digitChar_lt_iff h1' h1).2 hc
    have hnlt : ¬ Nat.digitChar (v / 10 % 10) < Nat.digitChar (v' / 10 % 10) := by
      intro hx
      exact absurd ((digitChar_lt_iff h1 h1').1 hx) (by omega)
    simp only [pyStrLtAux, if_neg hnlt, if_pos hlt, Bool.false_eq_true, false_iff]
    rintro (hlt2 | ⟨heq, _⟩) <;> omega

theorem pyStrLtAux_four_digits {v v' : Nat} (hv : v ≤ 9999) (hv' : v' ≤ 9999)
    (cs cs' : List Char) :
    (pyStrLtAux
        (Nat.digitChar (v / 1000 % 10) :: Nat.digitChar (v / 100 % 10)
          :: Nat.digitChar (v / 10 % 10) :: Nat.digitChar (v % 10) :: cs)
        (Nat.digitChar (v' / 1000 % 10) :: Nat.digitChar (v' / 100 % 10)
          :: Nat.digitChar (v' / 10 % 10) :: Nat.digitChar (v' % 10) :: cs') = true)
      ↔ (v < v' ∨ (v = v' ∧ pyStrLtAux cs cs' = true)) := by
  have ha : v / 100 ≤ 99 := by omega
  have ha' : v' / 100 ≤ 99 := by omega
  have hb : v % 100 ≤ 99 := by omega
  have hb' : v' % 100 ≤ 99 := by omega
  have e1 : v / 1000 % 10 = (v / 100) / 10 % 10 := by omega
  have e2 : v / 100 % 10 = (v / 100) % 10 := by omega
  have e3 : v / 10 % 10 = (v % 100) / 10 % 10 := by omega
  have e4 : v % 10 = (v % 100) % 10 := by omega
  have e1' : v' / 1000 % 10 = (v' / 100) / 10 % 10 := by omega
  have e2' : v' / 100 % 10 = (v' / 100) % 10 := by omega
  have e3' : v' / 10 % 10 = (v' % 100) / 10 % 10 := by omega
  have e4' : v' % 10 = (v' % 100) % 10 := by omega
  rw [e1, e2, e3, e4, e1', e2', e3', e4']
  rw [pyStrLtAux_two_digits ha ha']
  rw [pyStrLtAux_two_digits hb hb']
  constructor
  · rintro (hlt | ⟨heq, hlt2 | ⟨heq2, hP⟩⟩)
    · left
      omega
    · left
      omega
    · right
      exact ⟨by omega, hP⟩
  · rintro (hlt | ⟨heq, hP⟩)
    · rcases lt_or_ge (v / 100) (v' / 100) with h1 | h1
      · exact Or.inl h1
      · exact Or.inr ⟨by omega, Or.inl (by omega)⟩
    · exact Or.inr ⟨by omega, Or.inr ⟨by omega, hP⟩⟩

theorem isoDate_lt_iff {y m d y' m' d' : Nat}
    (hy : y ≤ 9999) (hy' : y' ≤ 9999) (hm : m ≤ 99) (hm' : m' ≤ 99)
    (hd : d ≤ 99) (hd' : d' ≤ 99) :
    isoDate y m d < isoDate y' m' d'
      ↔ (y < y' ∨ (y = y' ∧ (m < m' ∨ (m = m' ∧ d < d')))) := by
  rw [← pyStrLt_iff]
  show pyStrLtAux (isoDate y m d).data (isoDate y' m' d').data = true ↔ _
  simp only [isoDate]
  rw [pyStrLtAux_four_digits hy hy', pyStrLtAux_cons_same, pyStrLtAux_two_digits hm hm',
    pyStrLtAux_cons_same, pyStrLtAux_two_digits hd hd']
  have hnil : pyStrLtAux [] [] = false := rfl
  rw [hnil]
  constructor
  · rintro (h | ⟨he, h2 | ⟨he2, h3 | ⟨he3, hff⟩⟩⟩)
    · exact Or.inl h
    · exact Or.inr ⟨he, Or.inl h2⟩
    · exact Or.inr ⟨he, Or.inr ⟨he2, h3⟩⟩
    · cases hff
  · rintro (h | ⟨he, h2 | ⟨he2, h3⟩⟩)
    · exact Or.inl h
    · exact Or.inr ⟨he, Or.inl h2⟩
    · exact Or.inr ⟨he, Or.inr ⟨he2, Or.inl h3⟩⟩

/-- C7: whenever a timestamp string parses (the model covers the log's
`YYYY-MM-DDTHH:MM:SS±HH:MM` offset format), `_extract_date` returns exactly
the zero-padded date assembled from the parsed year, month and day — which
are literally the first ten characters of the timestamp, i.e. the
offset-local date with no normalization to UTC or any other timezone (the
offset fields do not influence the result) — and any two such extracted
date strings compare lexicographically exactly as the corresponding
(year, month, day) triples compare in calendar order. -/
theorem C7_extract_date_no_normalization (ts : String) (dt : PyDateTime)
    (h : fromisoformat ts = some dt) :
    extract_date ts = some (isoDate dt.year dt.month dt.day)
    ∧ (isoDate dt.year dt.month dt.day).data = ts.data.take 10
    ∧ (∀ ts' dt', fromisoformat ts' = some dt' →
        (isoDate dt.year dt.month dt.day < isoDate dt'.year dt'.month dt'.day
          ↔ (dt.year < dt'.year ∨ (dt.year = dt'.year
              ∧ (dt.month < dt'.month
                ∨ (dt.month = dt'.month ∧ dt.day < dt'.day)))))) := by
  obtain ⟨_, hy9999, _, hmo12, _, hd31, hchars⟩ := fromisoformat_spec h
  refine ⟨by simp [extract_date, h], hchars, ?_⟩
  intro ts' dt' h'
  obtain ⟨_, hy9999', _, hmo12', _, hd31', _⟩ := fromisoformat_spec h'
  exact isoDate_lt_iff hy9999 hy9999' (by omega) (by omega) (by omega) (by omega)

/-- Witness for C7 at the README's example timestamp, whose offset is
`+00:00`; a second timestamp with a different offset but the same first
ten characters yields the same date. -/
theorem C7_extract_date_no_normalization_witness :
    fromisoformat "2018-12-09T14:19:00+00:00"
        = some ⟨2018, 12, 9, 14, 19, 0, false, 0, 0⟩
    ∧ extract_date "2018-12-09T14:19:00+00:00"
        = some (isoDate 2018 12 9) := by
  refine ⟨by decide, ?_⟩
  exact (C7_extract_date_no_normalization "2018-12-09T14:19:00+00:00"
    ⟨2018, 12, 9, 14, 19, 0, false, 0, 0⟩ (by decide)).1

end CookieLog
